import Mathlib

set_option maxRecDepth 8000

/-!
Verification of the `Defconfig` configuration-store model from
`sdk/tools/mkdefconfig.py`: loading a config file into a symbol→value
mapping, serializing it back in canonical sorted form, and computing a
three-group diff between two configurations.

Strings are modelled as `List Char`.  Lines handed to the matchers by the
program are newline-free (Python file iteration yields `\n`-terminated
lines, and `.` in the regexes never crosses `\n`), so theorems about a
single arbitrary line carry a newline-freedom hypothesis where it matters.
-/

abbrev Str := List Char

/-- Boolean prefix test on character lists. -/
def isPre : Str → Str → Bool
  | [], _ => true
  | _ :: _, [] => false
  | a :: as, b :: bs => if a = b then isPre as bs else false

/-- Index of the first occurrence of `pat` as a contiguous substring. -/
def findSub (pat : Str) : Str → Option Nat
  | [] => if isPre pat [] then some 0 else none
  | c :: t => if isPre pat (c :: t) then some 0 else (findSub pat t).map (· + 1)

/-- Index of the last occurrence of `pat` as a contiguous substring
(the position a greedy leading `.*` group backtracks to). -/
def findLastSub (pat : Str) : Str → Option Nat
  | [] => if isPre pat [] then some 0 else none
  | c :: t =>
    match findLastSub pat t with
    | some i => some (i + 1)
    | none => if isPre pat (c :: t) then some 0 else none

def cfgLit : Str := "CONFIG_".toList

def notSetLit : Str := " is not set".toList

/-- `s.replace('CONFIG_', '', 1)`: remove the first occurrence of
`CONFIG_` anywhere in the string (not only as a prefix). -/
def stripConfig (s : Str) : Str :=
  match findSub cfgLit s with
  | some i => s.take i ++ s.drop (i + cfgLit.length)
  | none => s

/-- Whether `pat` occurs as a contiguous substring of `s`. -/
def containsSub (pat s : Str) : Bool := (findSub pat s).isSome

/-- `re.match(r'^# (?P<symbol>.*) is not set', line)`: the line must start
with `# `, and the greedy group captures everything before the last
occurrence of ` is not set`; trailing characters after it are allowed
(the pattern has no end anchor). -/
def matchNotSet (line : Str) : Option Str :=
  if isPre ("# ".toList) line then
    match findLastSub notSetLit (line.drop 2) with
    | some i => some ((line.drop 2).take i)
    | none => none
  else none

/-- `re.match(r'(?P<symbol>.*)=(?P<value>.*)', line)`: the greedy first
group captures everything before the last `=`; the value is everything
after the last `=`. -/
def matchConfig (line : Str) : Option (Str × Str) :=
  match findLastSub ['='] line with
  | some i => some (line.take i, line.drop (i + 1))
  | none => none

/-- Python `dict` assignment `d[k] = v`: replace in place if the key is
present, append otherwise. -/
def dinsert : List (Str × Str) → Str → Str → List (Str × Str)
  | [], k, v => [(k, v)]
  | p :: t, k, v => if p.1 = k then (k, v) :: t else p :: dinsert t k v

/-- Association-list lookup (a Python dict holds each key once). -/
def lookupKV (k : Str) : List (Str × Str) → Option Str
  | [] => none
  | p :: t => if p.1 = k then some p.2 else lookupKV k t

/-- The keys of a mapping are pairwise distinct (always true of a dict). -/
def nodupKeys (m : List (Str × Str)) : Prop := (m.map Prod.fst).Nodup

instance (m : List (Str × Str)) : Decidable (nodupKeys m) := by
  unfold nodupKeys; infer_instance

/-- One iteration of the `load` loop: try the disabled-option grammar,
then the assignment grammar, else ignore the line. -/
def loadLine (m : List (Str × Str)) (line : Str) : List (Str × Str) :=
  match matchNotSet line with
  | some s => dinsert m (stripConfig s) ['n']
  | none =>
    match matchConfig line with
    | some (s, v) => dinsert m (stripConfig s) v
    | none => m

/-- The whole `load` loop over the lines of a file. -/
def loadLines (m : List (Str × Str)) (lines : List Str) : List (Str × Str) :=
  lines.foldl loadLine m

/-- The (symbol, value) pair a recognized line contributes. -/
def parseBack (line : Str) : Str × Str :=
  match matchNotSet line with
  | some s => (stripConfig s, ['n'])
  | none =>
    match matchConfig line with
    | some (s, v) => (stripConfig s, v)
    | none => ([], [])

/-- Split file content at every newline (`str.split('\n')` semantics). -/
def splitNl : Str → List Str
  | [] => [[]]
  | c :: cs =>
    if c = '\n' then [] :: splitNl cs
    else
      match splitNl cs with
      | [] => [[c]]
      | s :: ss => (c :: s) :: ss

/-- The lines Python file iteration yields, with their trailing newline
removed: an empty final segment (file ending in `\n`, or empty file)
is not a line. -/
def pyLines (c : Str) : List Str :=
  if (splitNl c).getLast? = some [] then (splitNl c).dropLast else splitNl c

/-- `'\n'.join(lines)`. -/
def joinNl : List Str → Str
  | [] => []
  | [l] => l
  | l :: l' :: ls => l ++ '\n' :: joinNl (l' :: ls)

/-- Python string `<` on code points, reflexive version (`s1 <= s2`);
this is the order `sorted` uses on the formatted lines. -/
def lexLe : Str → Str → Bool
  | [], _ => true
  | _ :: _, [] => false
  | a :: as, b :: bs => if a < b then true else if a = b then lexLe as bs else false

/-- `lexLe` as a relation, for the sorting lemmas. -/
def strLe (a b : Str) : Prop := lexLe a b = true

instance : DecidableRel strLe := fun a b => inferInstanceAs (Decidable (_ = true))

/-- Python tuple comparison on `(symbol, value)` pairs, as used by
`sorted(self.opts.items())`. -/
def pairLe (p q : Str × Str) : Prop :=
  (if p.1 = q.1 then lexLe p.2 q.2 else lexLe p.1 q.1) = true

instance : DecidableRel pairLe := fun p q => inferInstanceAs (Decidable (_ = true))

/-- One output line of `save`: `# CONFIG_<sym> is not set` for the
disabled marker `n`, `CONFIG_<sym>=<val>` otherwise. -/
def fmtEntry (p : Str × Str) : Str :=
  if p.2 = ['n'] then "# ".toList ++ cfgLit ++ p.1 ++ notSetLit
  else cfgLit ++ p.1 ++ '=' :: p.2

/-- The seven lines of `DEFCONFIG_HEADER`. -/
def headerLines : List Str :=
  ["#".toList,
   "# This file is autogenerated: PLEASE DO NOT EDIT IT.".toList,
   "#".toList,
   "# You can use \"make menuconfig\" to make any modifications to the installed .config file.".toList,
   "# You can then do \"make savedefconfig\" to generate a new defconfig file that includes your".toList,
   "# modifications.".toList,
   "#".toList]

/-- The `DEFCONFIG_HEADER` string constant. -/
def headerStr : Str := joinNl headerLines

/-- The body lines of `save`: format `sorted(self.opts.items())`, then
sort the formatted lines again (`'\n'.join(sorted(config))`). -/
def entryLines (opts : List (Str × Str)) : List Str :=
  List.insertionSort strLe ((List.insertionSort pairLe opts).map fmtEntry)

/-- The full file content `save` writes: `print(DEFCONFIG_HEADER)` then
`print('\n'.join(sorted(config)))`, each `print` appending a newline. -/
def saveContent (opts : List (Str × Str)) : Str :=
  headerStr ++ '\n' :: joinNl (entryLines opts) ++ ['\n']

/-- The `Defconfig` object: an optional bound path and the option map. -/
structure Defconfig where
  path : Option Str
  opts : List (Str × Str)

/-- `if path == None: path = self.path`: the path `load` and the save
operations actually use. -/
def resolveArg (arg selfPath : Option Str) : Option Str :=
  match arg with
  | none => selfPath
  | some q => some q

/-- `Defconfig.load`.  The filesystem is a map from path to file content
(`none` when `os.path.exists` is false).  Returns the Python return value
(`some (-1)` for the not-found failure, `none` for the implicit `None` on
success) together with the updated object. -/
def Defconfig.load (fs : Str → Option Str) (self : Defconfig) (arg : Option Str) :
    Option Int × Defconfig :=
  match resolveArg arg self.path with
  | none => (some (-1), self)
  | some q =>
    match fs q with
    | none => (some (-1), self)
    | some content => (none, ⟨self.path, loadLines self.opts (pyLines content)⟩)

/-- A filesystem holding exactly one file. -/
def singleFs (p : Str) (content : Str) : Str → Option Str :=
  fun q => if q = p then some content else none

/-- A `-SYMBOL=VALUE` diff line. -/
def fmtMinus (p : Str × Str) : Str := '-' :: p.1 ++ '=' :: p.2

/-- A `+SYMBOL=VALUE` diff line. -/
def fmtPlus (p : Str × Str) : Str := '+' :: p.1 ++ '=' :: p.2

/-- A ` SYMBOL=OLD->NEW` diff line (target value first). -/
def fmtChange (sym old new : Str) : Str :=
  ' ' :: sym ++ '=' :: old ++ '-' :: '>' :: new

/-- `minus` group of `save_diff`: symbols of `target` absent from `self`,
formatted and sorted. -/
def minusLines (selfOpts targetOpts : List (Str × Str)) : List Str :=
  List.insertionSort strLe
    ((targetOpts.filter fun p => (lookupKV p.1 selfOpts).isNone).map fmtMinus)

/-- `plus` group of `save_diff`: symbols of `self` absent from `target`,
formatted and sorted. -/
def plusLines (selfOpts targetOpts : List (Str × Str)) : List Str :=
  List.insertionSort strLe
    ((selfOpts.filter fun p => (lookupKV p.1 targetOpts).isNone).map fmtPlus)

/-- `changes` group of `save_diff`: symbols in both maps whose values
differ, formatted and sorted. -/
def changesLines (selfOpts targetOpts : List (Str × Str)) : List Str :=
  List.insertionSort strLe
    (selfOpts.filterMap fun p =>
      match lookupKV p.1 targetOpts with
      | some tv => if tv = p.2 then none else some (fmtChange p.1 tv p.2)
      | none => none)

/-- The diff lines `save_diff` emits: `sorted(minus) + sorted(changes) +
sorted(plus)`. -/
def saveDiffLines (selfOpts targetOpts : List (Str × Str)) : List Str :=
  minusLines selfOpts targetOpts ++ changesLines selfOpts targetOpts ++
    plusLines selfOpts targetOpts

/-- The file content `save_diff` writes: `print('\n'.join(out))`. -/
def saveDiffContent (selfOpts targetOpts : List (Str × Str)) : Str :=
  joinNl (saveDiffLines selfOpts targetOpts) ++ ['\n']

/-! ### Order properties of the line comparison -/

theorem lexLe_total : ∀ a b : Str, lexLe a b = true ∨ lexLe b a = true
  | [], _ => Or.inl rfl
  | _ :: _, [] => Or.inr rfl
  | a :: as, b :: bs => by
    rcases lt_trichotomy a b with h | h | h
    · left; simp [lexLe, h]
    · subst h
      rcases lexLe_total as bs with h' | h'
      · left; simp [lexLe, lt_irrefl, h']
      · right; simp [lexLe, lt_irrefl, h']
    · right; simp [lexLe, h]

theorem lexLe_trans : ∀ a b c : Str, lexLe a b = true → lexLe b c = true →
    lexLe a c = true
  | [], _, _, _, _ => rfl
  | _ :: _, [], _, h, _ => by simp [lexLe] at h
  | _ :: _, _ :: _, [], _, h => by simp [lexLe] at h
  | a :: as, b :: bs, c :: cs, h1, h2 => by
    simp only [lexLe] at h1 h2 ⊢
    by_cases hab : a < b
    · by_cases hbc : b < c
      · simp [lt_trans hab hbc]
      · by_cases hbc' : b = c
        · rw [← hbc']; simp [hab]
        · simp [hbc, hbc'] at h2
    · by_cases hab' : a = b
      · by_cases hbc : b < c
        · simp [hab' ▸ hbc]
        · by_cases hbc' : b = c
          · have hac : a = c := hab'.trans hbc'
            have hnlt : ¬ a < c := by rw [hac]; exact lt_irrefl c
            rw [if_neg hnlt, if_pos hac]
            rw [if_neg hab, if_pos hab'] at h1
            rw [if_neg hbc, if_pos hbc'] at h2
            exact lexLe_trans as bs cs h1 h2
          · simp [hbc, hbc'] at h2
      · simp [hab, hab'] at h1

theorem lexLe_antisymm : ∀ a b : Str, lexLe a b = true → lexLe b a = true → a = b
  | [], [], _, _ => rfl
  | [], _ :: _, _, h => by simp [lexLe] at h
  | _ :: _, [], h, _ => by simp [lexLe] at h
  | a :: as, b :: bs, h1, h2 => by
    simp only [lexLe] at h1 h2
    by_cases hab : a < b
    · have h1' : ¬ b < a := lt_asymm hab
      have h2' : ¬ b = a := ne_of_gt hab
      simp [h1', h2'] at h2
    · by_cases hab' : a = b
      · rw [if_neg hab, if_pos hab'] at h1
        rw [if_neg (hab' ▸ hab), if_pos hab'.symm] at h2
        rw [hab', lexLe_antisymm as bs h1 h2]
      · simp [hab, hab'] at h1

instance : IsTotal Str strLe := ⟨lexLe_total⟩

instance : IsTrans Str strLe := ⟨lexLe_trans⟩

instance : IsAntisymm Str strLe := ⟨lexLe_antisymm⟩

/-! ### Dictionary lemmas -/

theorem dinsert_cons_hit {p : Str × Str} {k : Str} (t : List (Str × Str)) (v : Str)
    (h : p.1 = k) : dinsert (p :: t) k v = (k, v) :: t := by
  simp [dinsert, h]

theorem dinsert_cons_miss {p : Str × Str} {k : Str} (t : List (Str × Str)) (v : Str)
    (h : ¬ p.1 = k) : dinsert (p :: t) k v = p :: dinsert t k v := by
  simp [dinsert, h]

theorem lookup_cons (p : Str × Str) (t : List (Str × Str)) (k : Str) :
    lookupKV k (p :: t) = if p.1 = k then some p.2 else lookupKV k t := rfl

theorem lookup_dinsert_self (m : List (Str × Str)) (k v : Str) :
    lookupKV k (dinsert m k v) = some v := by
  induction m with
  | nil => simp [dinsert, lookupKV]
  | cons p t ih =>
    by_cases h : p.1 = k
    · rw [dinsert_cons_hit t v h, lookup_cons]
      simp
    · rw [dinsert_cons_miss t v h, lookup_cons, if_neg h, ih]

theorem lookup_dinsert_ne (m : List (Str × Str)) (k v k' : Str) (h : k' ≠ k) :
    lookupKV k' (dinsert m k v) = lookupKV k' m := by
  induction m with
  | nil => simp [dinsert, lookupKV, Ne.symm h]
  | cons p t ih =>
    by_cases hp : p.1 = k
    · rw [dinsert_cons_hit t v hp, lookup_cons, lookup_cons]
      rw [if_neg (Ne.symm h), if_neg (fun hh : p.1 = k' => h (hh ▸ hp.symm ▸ rfl))]
    · rw [dinsert_cons_miss t v hp, lookup_cons, lookup_cons, ih]

theorem lookup_eq_none_of_not_mem (k : Str) (m : List (Str × Str))
    (h : k ∉ m.map Prod.fst) : lookupKV k m = none := by
  induction m with
  | nil => rfl
  | cons p t ih =>
    simp only [List.map_cons, List.mem_cons] at h
    push_neg at h
    rw [lookup_cons, if_neg (Ne.symm h.1), ih h.2]

theorem lookup_some_mem {k v : Str} {m : List (Str × Str)}
    (h : lookupKV k m = some v) : (k, v) ∈ m := by
  induction m with
  | nil => simp [lookupKV] at h
  | cons p t ih =>
    by_cases hp : p.1 = k
    · rw [lookup_cons, if_pos hp] at h
      have hv : p.2 = v := Option.some_inj.mp h
      have : (k, v) = p := by rw [← hp, ← hv]
      rw [this]
      exact List.mem_cons_self p t
    · rw [lookup_cons, if_neg hp] at h
      exact List.mem_cons_of_mem _ (ih h)

theorem lookup_eq_some_of_mem {p : Str × Str} {m : List (Str × Str)}
    (nd : nodupKeys m) (h : p ∈ m) : lookupKV p.1 m = some p.2 := by
  induction m with
  | nil => simp at h
  | cons q t ih =>
    unfold nodupKeys at nd
    simp only [List.map_cons, List.nodup_cons] at nd
    rcases List.mem_cons.mp h with h | h
    · rw [h, lookup_cons, if_pos rfl]
    · have hne : ¬ q.1 = p.1 := by
        intro he
        exact nd.1 (he ▸ List.mem_map_of_mem Prod.fst h)
      rw [lookup_cons, if_neg hne, ih nd.2 h]

theorem lookup_foldl_dinsert (ps : List (Str × Str)) (m : List (Str × Str)) (k : Str)
    (nd : nodupKeys ps) :
    lookupKV k (ps.foldl (fun acc p => dinsert acc p.1 p.2) m) =
      match lookupKV k ps with
      | some v => some v
      | none => lookupKV k m := by
  induction ps generalizing m with
  | nil => simp [lookupKV]
  | cons p t ih =>
    unfold nodupKeys at nd
    simp only [List.map_cons, List.nodup_cons] at nd
    simp only [List.foldl_cons]
    rw [ih _ nd.2]
    by_cases hk : p.1 = k
    · have ht : lookupKV k t = none := by
        rw [← hk]
        exact lookup_eq_none_of_not_mem _ _ nd.1
      rw [ht, lookup_cons, if_pos hk, ← hk, lookup_dinsert_self]
    · rw [lookup_cons, if_neg hk]
      rcases hval : lookupKV k t with _ | v
      · rw [lookup_dinsert_ne _ _ _ _ (Ne.symm hk)]
      · rfl

theorem lookup_perm {ps qs : List (Str × Str)} (h : ps.Perm qs) :
    nodupKeys ps → ∀ k, lookupKV k ps = lookupKV k qs := by
  induction h with
  | nil => intro _ _; rfl
  | cons x h ih =>
    intro nd k
    unfold nodupKeys at nd
    simp only [List.map_cons, List.nodup_cons] at nd
    rw [lookup_cons, lookup_cons, ih nd.2 k]
  | swap x y l =>
    intro nd k
    unfold nodupKeys at nd
    simp only [List.map_cons, List.nodup_cons, List.mem_cons] at nd
    push_neg at nd
    have hxy : y.1 ≠ x.1 := nd.1.1
    rw [lookup_cons, lookup_cons, lookup_cons, lookup_cons]
    by_cases hy : y.1 = k
    · rw [if_pos hy, if_neg (fun hh : x.1 = k => hxy (hy.trans hh.symm)), if_pos hy]
    · rw [if_neg hy, if_neg hy]
  | trans h1 h2 ih1 ih2 =>
    intro nd k
    have nd2 : nodupKeys _ := (h1.map Prod.fst).nodup nd
    rw [ih1 nd k, ih2 nd2 k]

/-! ### Substring search lemmas -/

theorem isPre_append_self : ∀ pat t : Str, isPre pat (pat ++ t) = true
  | [], _ => rfl
  | c :: cs, t => by simp [isPre, isPre_append_self cs t]

theorem isPre_iff : ∀ pat s : Str, isPre pat s = true ↔ ∃ t, s = pat ++ t
  | [], s => by simp [isPre]
  | c :: cs, [] => by
    simp only [isPre]
    constructor
    · intro h; cases h
    · rintro ⟨t, h⟩; cases h
  | c :: cs, b :: bs => by
    simp only [isPre]
    by_cases hc : c = b
    · subst hc
      rw [if_pos rfl, isPre_iff cs bs]
      constructor
      · rintro ⟨t, rfl⟩; exact ⟨t, rfl⟩
      · rintro ⟨t, h⟩
        rw [List.cons_append] at h
        exact ⟨t, (List.cons.injEq _ _ _ _ ▸ h).2⟩
    · rw [if_neg hc]
      constructor
      · intro h; cases h
      · rintro ⟨t, h⟩
        rw [List.cons_append] at h
        exact absurd (List.cons.injEq _ _ _ _ ▸ h).1.symm hc

theorem isPre_length {pat s : Str} (h : isPre pat s = true) : pat.length ≤ s.length := by
  obtain ⟨t, rfl⟩ := (isPre_iff pat s).mp h
  simp

theorem isPre_nil_false {pat : Str} (hp : pat ≠ []) : isPre pat [] = false := by
  cases pat with
  | nil => exact absurd rfl hp
  | cons c cs => rfl

theorem findSub_of_isPre {pat s : Str} (h : isPre pat s = true) :
    findSub pat s = some 0 := by
  cases s with
  | nil => simp [findSub, h]
  | cons c cs => simp [findSub, h]

theorem take_len_append (a b : List Char) : (a ++ b).take a.length = a := by
  induction a with
  | nil => rfl
  | cons c cs ih => simp [ih]

theorem drop_len_append (a b : List Char) : (a ++ b).drop a.length = b := by
  induction a with
  | nil => rfl
  | cons c cs ih => simp [ih]

theorem stripConfig_append (k : Str) : stripConfig (cfgLit ++ k) = k := by
  unfold stripConfig
  rw [findSub_of_isPre (isPre_append_self cfgLit k)]
  simp only [List.take_zero, List.nil_append, Nat.zero_add]
  exact drop_len_append cfgLit k

theorem findLastSub_none_of_short {pat : Str} (hp : pat ≠ []) :
    ∀ s : Str, s.length < pat.length → findLastSub pat s = none := by
  intro s
  induction s with
  | nil =>
    intro _
    simp [findLastSub, isPre_nil_false hp]
  | cons c t ih =>
    intro h
    have ht : t.length < pat.length := Nat.lt_of_succ_lt h
    have hpre : isPre pat (c :: t) = false := by
      rcases hb : isPre pat (c :: t) with _ | _
      · rfl
      · exact absurd (isPre_length hb) (Nat.not_le_of_lt h)
    simp [findLastSub, ih ht, hpre]

theorem findLastSub_append_pat {pat : Str} (hp : pat ≠ []) :
    ∀ a : Str, findLastSub pat (a ++ pat) = some a.length := by
  intro a
  induction a with
  | nil =>
    cases hpat : pat with
    | nil => exact absurd hpat hp
    | cons p pt =>
      have hlt : pt.length < pat.length := by rw [hpat]; simp
      have hnone := findLastSub_none_of_short hp pt hlt
      have hpre : isPre pat (p :: pt) = true := by
        have := isPre_append_self pat []
        rw [List.append_nil, hpat] at this
        rw [hpat]; exact this
      rw [List.nil_append, hpat] at *
      simp [findLastSub, hnone, hpre]
  | cons c t ih =>
    rw [List.cons_append]
    simp [findLastSub, ih]

theorem findLastSub_single_none {ch : Char} {v : Str} (h : ch ∉ v) :
    findLastSub [ch] v = none := by
  induction v with
  | nil => rfl
  | cons c t ih =>
    simp only [List.mem_cons] at h
    push_neg at h
    have hpre : isPre [ch] (c :: t) = false := by
      simp [isPre, h.1]
    simp [findLastSub, ih h.2, hpre]

theorem findLastSub_single_append {ch : Char} {v : Str} (h : ch ∉ v) :
    ∀ a : Str, findLastSub [ch] (a ++ ch :: v) = some a.length := by
  intro a
  induction a with
  | nil =>
    rw [List.nil_append]
    simp [findLastSub, findLastSub_single_none h, isPre]
  | cons c t ih =>
    rw [List.cons_append]
    simp [findLastSub, ih]

theorem findLastSub_none_spec {pat : Str} (hp : pat ≠ []) :
    ∀ s, findLastSub pat s = none → ∀ j, isPre pat (s.drop j) = false := by
  intro s
  induction s with
  | nil =>
    intro _ j
    rw [List.drop_nil]
    exact isPre_nil_false hp
  | cons c t ih =>
    intro h j
    rw [findLastSub] at h
    rcases ht : findLastSub pat t with _ | i'
    · rw [ht] at h
      rcases hpre : isPre pat (c :: t) with _ | _
      · cases j with
        | zero => exact hpre
        | succ j' => rw [List.drop_succ_cons]; exact ih ht j'
      · rw [hpre] at h; simp at h
    · rw [ht] at h; cases h

theorem findLastSub_some_spec {pat : Str} (hp : pat ≠ []) :
    ∀ s i, findLastSub pat s = some i →
      isPre pat (s.drop i) = true ∧ ∀ j, isPre pat (s.drop j) = true → j ≤ i := by
  intro s
  induction s with
  | nil =>
    intro i h
    rw [findLastSub, isPre_nil_false hp] at h
    cases h
  | cons c t ih =>
    intro i h
    rw [findLastSub] at h
    rcases ht : findLastSub pat t with _ | i'
    · rw [ht] at h
      rcases hpre : isPre pat (c :: t) with _ | _
      · rw [hpre] at h; cases h
      · rw [hpre] at h
        simp at h
        have hnone : ∀ j, isPre pat (t.drop j) = true → False := by
          intro j hj
          have := findLastSub_none_spec hp t ht j
          rw [hj] at this
          cases this
        subst h
        refine ⟨by rw [List.drop_zero]; exact hpre, ?_⟩
        intro j hj
        cases j with
        | zero => exact Nat.le_refl 0
        | succ j' =>
          rw [List.drop_succ_cons] at hj
          exact absurd hj (fun hh => hnone j' hh)
    · rw [ht] at h
      rcases ih i' ht with ⟨hpre', hmax'⟩
      simp only [Option.some_inj] at h
      subst h
      refine ⟨by rw [List.drop_succ_cons]; exact hpre', ?_⟩
      intro j hj
      cases j with
      | zero => exact Nat.zero_le _
      | succ j' =>
        rw [List.drop_succ_cons] at hj
        exact Nat.succ_le_succ (hmax' j' hj)

/-! ### Splitting and joining file content -/

theorem splitNl_nlfree (a : Str) (h : '\n' ∉ a) : splitNl a = [a] := by
  induction a with
  | nil => rfl
  | cons c cs ih =>
    simp only [List.mem_cons] at h
    push_neg at h
    simp [splitNl, Ne.symm h.1, ih h.2]

theorem splitNl_append (a b : Str) (h : '\n' ∉ a) :
    splitNl (a ++ '\n' :: b) = a :: splitNl b := by
  induction a with
  | nil => simp [splitNl]
  | cons c cs ih =>
    simp only [List.mem_cons] at h
    push_neg at h
    rw [List.cons_append]
    simp [splitNl, Ne.symm h.1, ih h.2]

theorem joinNl_append : ∀ A B : List Str, A ≠ [] → B ≠ [] →
    joinNl (A ++ B) = joinNl A ++ '\n' :: joinNl B
  | [], _, hA, _ => absurd rfl hA
  | [_], [], _, hB => absurd rfl hB
  | [_], _ :: _, _, _ => rfl
  | a :: a2 :: A'', B, _, hB => by
    have h2 := joinNl_append (a2 :: A'') B (List.cons_ne_nil _ _) hB
    calc joinNl ((a :: a2 :: A'') ++ B)
        = a ++ '\n' :: joinNl ((a2 :: A'') ++ B) := rfl
      _ = a ++ '\n' :: (joinNl (a2 :: A'') ++ '\n' :: joinNl B) := by rw [h2]
      _ = (a ++ '\n' :: joinNl (a2 :: A'')) ++ '\n' :: joinNl B := by simp
      _ = joinNl (a :: a2 :: A'') ++ '\n' :: joinNl B := rfl

theorem splitNl_join : ∀ ls : List Str, ls ≠ [] → (∀ l ∈ ls, '\n' ∉ l) →
    splitNl (joinNl ls ++ ['\n']) = ls ++ [[]]
  | [], h, _ => absurd rfl h
  | [l], _, hnl => by
    have hl : '\n' ∉ l := hnl l (by simp)
    show splitNl (l ++ '\n' :: []) = [l] ++ [[]]
    rw [splitNl_append l [] hl]
    rfl
  | l :: l2 :: ls', _, hnl => by
    have hl : '\n' ∉ l := hnl l (by simp)
    have hstep : joinNl (l :: l2 :: ls') ++ ['\n'] =
        l ++ '\n' :: (joinNl (l2 :: ls') ++ ['\n']) := by
      show (l ++ '\n' :: joinNl (l2 :: ls')) ++ ['\n'] = _
      simp
    rw [hstep, splitNl_append _ _ hl,
      splitNl_join (l2 :: ls') (List.cons_ne_nil _ _)
        (fun x hx => hnl x (List.mem_cons_of_mem _ hx))]
    rfl

theorem append_singleton_ne_nil (A : List Str) (x : Str) : A ++ [x] ≠ [] := by
  cases A with
  | nil => simp
  | cons a A' => simp

theorem cons_append_ne_nil (a : Str) (A B : List Str) : (a :: A) ++ B ≠ [] := by
  simp

theorem pyLines_join (ls : List Str) (h : ls ≠ []) (hnl : ∀ l ∈ ls, '\n' ∉ l) :
    pyLines (joinNl ls ++ ['\n']) = ls := by
  unfold pyLines
  rw [splitNl_join ls h hnl]
  rw [List.getLast?_concat, if_pos rfl, List.dropLast_concat]

theorem headerLines_nlfree : ∀ l ∈ headerLines, '\n' ∉ l := by decide

theorem pyLines_saveContent (opts : List (Str × Str))
    (hnl : ∀ l ∈ entryLines opts, '\n' ∉ l) :
    pyLines (saveContent opts) =
      headerLines ++ (if entryLines opts = [] then [[]] else entryLines opts) := by
  have hhne : headerLines ≠ [] := by unfold headerLines; simp
  by_cases he : entryLines opts = []
  · have hln : ∀ l ∈ headerLines ++ [[]], '\n' ∉ l := by
      intro l hl
      rcases List.mem_append.mp hl with hl | hl
      · exact headerLines_nlfree l hl
      · simp only [List.mem_singleton] at hl
        rw [hl]; simp
    have hc : saveContent opts = joinNl (headerLines ++ [[]]) ++ ['\n'] := by
      unfold saveContent headerStr
      rw [he, joinNl_append headerLines [[]] hhne (by simp)]
      simp only [joinNl, List.append_assoc, List.cons_append, List.nil_append]
    rw [hc, pyLines_join _ (append_singleton_ne_nil _ _) hln, if_pos he]
  · have hln : ∀ l ∈ headerLines ++ entryLines opts, '\n' ∉ l := by
      intro l hl
      rcases List.mem_append.mp hl with hl | hl
      · exact headerLines_nlfree l hl
      · exact hnl l hl
    have hc : saveContent opts = joinNl (headerLines ++ entryLines opts) ++ ['\n'] := by
      unfold saveContent headerStr
      rw [joinNl_append headerLines (entryLines opts) hhne he]
    have hne2 : headerLines ++ entryLines opts ≠ [] := by
      unfold headerLines
      exact cons_append_ne_nil _ _ _
    rw [hc, pyLines_join _ hne2 hln, if_neg he]

/-! ### Parsing the formatted lines back -/

theorem loadLine_skip (m : List (Str × Str)) (line : Str)
    (h1 : matchNotSet line = none) (h2 : matchConfig line = none) :
    loadLine m line = m := by
  simp only [loadLine, h1, h2]

theorem loadLine_notset (m : List (Str × Str)) (line s : Str)
    (h : matchNotSet line = some s) :
    loadLine m line = dinsert m (stripConfig s) ['n'] := by
  simp only [loadLine, h]

theorem loadLine_assign (m : List (Str × Str)) (line s v : Str)
    (h1 : matchNotSet line = none) (h2 : matchConfig line = some (s, v)) :
    loadLine m line = dinsert m (stripConfig s) v := by
  simp only [loadLine, h1, h2]

theorem matchConfig_split (a v : Str) (hv : '=' ∉ v) :
    matchConfig (a ++ '=' :: v) = some (a, v) := by
  unfold matchConfig
  rw [findLastSub_single_append hv a]
  have h1 : (a ++ '=' :: v).take a.length = a := take_len_append a ('=' :: v)
  have h2 : (a ++ '=' :: v).drop (a.length + 1) = v := by
    have hsplit : a ++ '=' :: v = (a ++ ['=']) ++ v := by simp
    rw [hsplit]
    have hl : a.length + 1 = (a ++ ['=']).length := by simp
    rw [hl, drop_len_append]
  show some ((a ++ '=' :: v).take a.length, (a ++ '=' :: v).drop (a.length + 1)) =
    some (a, v)
  rw [h1, h2]

theorem matchNotSet_eq_none (line : Str) (h : isPre ("# ".toList) line = false) :
    matchNotSet line = none := by
  unfold matchNotSet
  rw [h]
  rfl

theorem isPre_hash_cfg (x : Str) : isPre ("# ".toList) (cfgLit ++ x) = false := by
  have h1 : cfgLit = 'C' :: "ONFIG_".toList := by decide
  have h2 : "# ".toList = '#' :: [' '] := by decide
  have h3 : ¬ ('#' : Char) = 'C' := by decide
  rw [h1, h2, List.cons_append]
  simp [isPre, h3]

theorem matchNotSet_exact (a : Str) :
    matchNotSet ('#' :: ' ' :: (a ++ notSetLit)) = some a := by
  unfold matchNotSet
  have hpre : isPre ("# ".toList) ('#' :: ' ' :: (a ++ notSetLit)) = true := by
    have h2 : "# ".toList = '#' :: [' '] := by decide
    rw [h2]
    simp [isPre]
  rw [hpre]
  have hdrop : List.drop 2 ('#' :: ' ' :: (a ++ notSetLit)) = a ++ notSetLit := rfl
  rw [if_pos rfl, hdrop, findLastSub_append_pat (by decide : notSetLit ≠ []) a]
  show some ((a ++ notSetLit).take a.length) = some a
  rw [take_len_append]

theorem fmtEntry_eq_notset (k : Str) :
    fmtEntry (k, ['n']) = '#' :: ' ' :: ((cfgLit ++ k) ++ notSetLit) := by
  unfold fmtEntry
  rw [if_pos rfl]
  have h2 : "# ".toList = '#' :: [' '] := by decide
  rw [h2]
  simp

theorem fmtEntry_eq_assign (k v : Str) (hn : v ≠ ['n']) :
    fmtEntry (k, v) = (cfgLit ++ k) ++ '=' :: v := by
  unfold fmtEntry
  rw [if_neg (by intro hh; exact hn hh)]

theorem parseBack_fmtEntry (k v : Str) (hv : '=' ∉ v) :
    parseBack (fmtEntry (k, v)) = (k, v) := by
  by_cases hn : v = ['n']
  · subst hn
    rw [fmtEntry_eq_notset k]
    unfold parseBack
    rw [matchNotSet_exact (cfgLit ++ k)]
    show (stripConfig (cfgLit ++ k), ['n']) = (k, ['n'])
    rw [stripConfig_append]
  · rw [fmtEntry_eq_assign k v hn]
    have hns : matchNotSet ((cfgLit ++ k) ++ '=' :: v) = none := by
      apply matchNotSet_eq_none
      have : (cfgLit ++ k) ++ '=' :: v = cfgLit ++ (k ++ '=' :: v) := by simp
      rw [this]
      exact isPre_hash_cfg _
    unfold parseBack
    rw [hns, matchConfig_split (cfgLit ++ k) v hv]
    show (stripConfig (cfgLit ++ k), v) = (k, v)
    rw [stripConfig_append]

theorem loadLine_fmtEntry (m : List (Str × Str)) (k v : Str) (hv : '=' ∉ v) :
    loadLine m (fmtEntry (k, v)) = dinsert m k v := by
  by_cases hn : v = ['n']
  · subst hn
    rw [fmtEntry_eq_notset k]
    rw [loadLine_notset _ _ (cfgLit ++ k) (matchNotSet_exact (cfgLit ++ k))]
    rw [stripConfig_append]
  · rw [fmtEntry_eq_assign k v hn]
    have hns : matchNotSet ((cfgLit ++ k) ++ '=' :: v) = none := by
      apply matchNotSet_eq_none
      have : (cfgLit ++ k) ++ '=' :: v = cfgLit ++ (k ++ '=' :: v) := by simp
      rw [this]
      exact isPre_hash_cfg _
    rw [loadLine_assign _ _ (cfgLit ++ k) v hns (matchConfig_split (cfgLit ++ k) v hv)]
    rw [stripConfig_append]

theorem fmtEntry_nlfree (k v : Str) (hk : '\n' ∉ k) (hv : '\n' ∉ v) :
    '\n' ∉ fmtEntry (k, v) := by
  have h1 : '\n' ∉ "# ".toList := by decide
  have h2 : '\n' ∉ cfgLit := by decide
  have h3 : '\n' ∉ notSetLit := by decide
  have h4 : ('\n' : Char) ≠ '=' := by decide
  unfold fmtEntry
  by_cases hn : v = ['n']
  · rw [if_pos hn]
    simp [List.mem_append, h1, h2, h3, hk]
  · rw [if_neg hn]
    simp [List.mem_append, List.mem_cons, h2, h4, hk, hv]

theorem loadLines_append (m : List (Str × Str)) (A B : List Str) :
    loadLines m (A ++ B) = loadLines (loadLines m A) B := by
  unfold loadLines
  induction A generalizing m with
  | nil => rfl
  | cons a A' ih => exact ih (loadLine m a)

theorem loadLines_skip_all (lines : List Str) (m : List (Str × Str))
    (h : ∀ l ∈ lines, matchNotSet l = none ∧ matchConfig l = none) :
    loadLines m lines = m := by
  induction lines generalizing m with
  | nil => rfl
  | cons l ls ih =>
    have hl := h l (by simp)
    show loadLines (loadLine m l) ls = m
    rw [loadLine_skip m l hl.1 hl.2]
    exact ih m (fun x hx => h x (List.mem_cons_of_mem _ hx))

theorem headerLines_skip : ∀ l ∈ headerLines,
    matchNotSet l = none ∧ matchConfig l = none := by decide

theorem emptyLine_skip : matchNotSet ([] : Str) = none ∧ matchConfig ([] : Str) = none := by
  decide

theorem loadLine_parseBack (m : List (Str × Str)) (line : Str)
    (h : (matchNotSet line).isSome ∨ (matchConfig line).isSome) :
    loadLine m line = dinsert m (parseBack line).1 (parseBack line).2 := by
  rcases hns : matchNotSet line with _ | s
  · rcases hcf : matchConfig line with _ | ⟨s, v⟩
    · rw [hns, hcf] at h
      simp at h
    · simp only [loadLine, parseBack, hns, hcf]
  · simp only [loadLine, parseBack, hns]

theorem loadLines_parseBack (lines : List Str) (m : List (Str × Str))
    (h : ∀ l ∈ lines, (matchNotSet l).isSome ∨ (matchConfig l).isSome) :
    loadLines m lines =
      (lines.map parseBack).foldl (fun acc p => dinsert acc p.1 p.2) m := by
  induction lines generalizing m with
  | nil => rfl
  | cons l ls ih =>
    show loadLines (loadLine m l) ls = _
    rw [loadLine_parseBack m l (h l (by simp))]
    rw [ih _ (fun x hx => h x (List.mem_cons_of_mem _ hx))]
    rfl

theorem fmtEntry_matched (k v : Str) (hv : '=' ∉ v) :
    (matchNotSet (fmtEntry (k, v))).isSome ∨ (matchConfig (fmtEntry (k, v))).isSome := by
  by_cases hn : v = ['n']
  · subst hn
    rw [fmtEntry_eq_notset k, matchNotSet_exact (cfgLit ++ k)]
    left; rfl
  · rw [fmtEntry_eq_assign k v hn, matchConfig_split (cfgLit ++ k) v hv]
    right; rfl

theorem entryLines_perm (opts : List (Str × Str)) :
    (entryLines opts).Perm (opts.map fmtEntry) := by
  unfold entryLines
  exact (List.perm_insertionSort strLe _).trans
    ((List.perm_insertionSort pairLe opts).map fmtEntry)

/-- Master round-trip lemma: writing `saveContent` and loading it back into
an empty map reproduces the original mapping extensionally, provided no
value contains `=` and symbols/values are newline-free. -/
theorem roundtrip_lookup (opts : List (Str × Str)) (k : Str) (hnd : nodupKeys opts)
    (hstr : ∀ p ∈ opts, '\n' ∉ p.1 ∧ '\n' ∉ p.2 ∧ '=' ∉ p.2) :
    lookupKV k (loadLines [] (pyLines (saveContent opts))) = lookupKV k opts := by
  have hperm := entryLines_perm opts
  have hmem : ∀ l ∈ entryLines opts, ∃ p ∈ opts, l = fmtEntry p := by
    intro l hl
    rcases List.mem_map.mp (hperm.mem_iff.mp hl) with ⟨p, hp, hfp⟩
    exact ⟨p, hp, hfp.symm⟩
  have hnl : ∀ l ∈ entryLines opts, '\n' ∉ l := by
    intro l hl
    rcases hmem l hl with ⟨p, hp, hlp⟩
    rw [hlp]
    exact fmtEntry_nlfree p.1 p.2 (hstr p hp).1 (hstr p hp).2.1
  rw [pyLines_saveContent opts hnl, loadLines_append,
    loadLines_skip_all headerLines [] headerLines_skip]
  by_cases he : entryLines opts = []
  · rw [if_pos he]
    have hskip : loadLines [] [[]] = [] :=
      loadLines_skip_all [[]] [] (by
        intro l hl
        simp only [List.mem_singleton] at hl
        rw [hl]
        exact emptyLine_skip)
    rw [hskip]
    have hopts : opts = [] := by
      have hlen := hperm.length_eq
      rw [he] at hlen
      simp only [List.length_nil, List.length_map] at hlen
      exact List.eq_nil_of_length_eq_zero hlen.symm
    rw [hopts]
  · rw [if_neg he]
    have hmatched : ∀ l ∈ entryLines opts,
        (matchNotSet l).isSome ∨ (matchConfig l).isSome := by
      intro l hl
      rcases hmem l hl with ⟨p, hp, hlp⟩
      rw [hlp]
      exact fmtEntry_matched p.1 p.2 (hstr p hp).2.2
    rw [loadLines_parseBack _ _ hmatched]
    have hps : ((entryLines opts).map parseBack).Perm opts := by
      have h1 := hperm.map parseBack
      have h2 : (opts.map fmtEntry).map parseBack = opts := by
        rw [List.map_map]
        have hcong : ∀ p ∈ opts, (parseBack ∘ fmtEntry) p = id p := by
          intro p hp
          show parseBack (fmtEntry p) = p
          exact parseBack_fmtEntry p.1 p.2 (hstr p hp).2.2
        rw [List.map_congr_left hcong, List.map_id]
      rw [h2] at h1
      exact h1
    have hndps : nodupKeys ((entryLines opts).map parseBack) := by
      unfold nodupKeys at hnd ⊢
      exact ((hps.map Prod.fst).symm).nodup hnd
    rw [lookup_foldl_dinsert _ _ _ hndps]
    rw [lookup_perm hps hndps k]
    rcases hres : lookupKV k opts with _ | v
    · rfl
    · rfl

/-! ### Key tracking through load -/

theorem mem_dinsert {p : Str × Str} {m : List (Str × Str)} {k v : Str}
    (h : p ∈ dinsert m k v) : p = (k, v) ∨ p ∈ m := by
  induction m with
  | nil =>
    simp only [dinsert, List.mem_singleton] at h
    exact Or.inl h
  | cons q t ih =>
    by_cases hq : q.1 = k
    · rw [dinsert_cons_hit t v hq] at h
      rcases List.mem_cons.mp h with h | h
      · exact Or.inl h
      · exact Or.inr (List.mem_cons_of_mem _ h)
    · rw [dinsert_cons_miss t v hq] at h
      rcases List.mem_cons.mp h with h | h
      · exact Or.inr (h ▸ List.mem_cons_self q t)
      · rcases ih h with h | h
        · exact Or.inl h
        · exact Or.inr (List.mem_cons_of_mem _ h)

theorem loadLine_keys (m : List (Str × Str)) (line : Str) (p : Str × Str)
    (h : p ∈ loadLine m line) : p ∈ m ∨ p.1 = (parseBack line).1 := by
  rcases hns : matchNotSet line with _ | s
  · rcases hcf : matchConfig line with _ | ⟨s, v⟩
    · rw [loadLine_skip m line hns hcf] at h
      exact Or.inl h
    · rw [loadLine_assign m line s v hns hcf] at h
      rcases mem_dinsert h with h | h
      · right
        rw [h]
        simp only [parseBack, hns, hcf]
      · exact Or.inl h
  · rw [loadLine_notset m line s hns] at h
    rcases mem_dinsert h with h | h
    · right
      rw [h]
      simp only [parseBack, hns]
    · exact Or.inl h

theorem loadLines_keys (lines : List Str) (m : List (Str × Str)) (p : Str × Str)
    (h : p ∈ loadLines m lines) : p ∈ m ∨ ∃ l ∈ lines, p.1 = (parseBack l).1 := by
  induction lines generalizing m with
  | nil => exact Or.inl h
  | cons l ls ih =>
    have h' : p ∈ loadLines (loadLine m l) ls := h
    rcases ih (loadLine m l) h' with h'' | ⟨l', hl', hk⟩
    · rcases loadLine_keys m l p h'' with h3 | h3
      · exact Or.inl h3
      · exact Or.inr ⟨l, by simp, h3⟩
    · exact Or.inr ⟨l', List.mem_cons_of_mem _ hl', hk⟩

/-! ### Claim theorems -/

/-- C10: `load` is total over file content: every line either matches
the disabled-option grammar (recorded with marker `n`), or fails it and
matches the assignment grammar (recorded with its value), or matches
neither and is skipped; the per-line step is a total function, so no
line content can fail to be processed. -/
theorem claim_C10_load_total (m : List (Str × Str)) (line : Str) :
    (∃ s, matchNotSet line = some s ∧
      loadLine m line = dinsert m (stripConfig s) ['n']) ∨
    (matchNotSet line = none ∧
      ∃ s v, matchConfig line = some (s, v) ∧
        loadLine m line = dinsert m (stripConfig s) v) ∨
    (matchNotSet line = none ∧ matchConfig line = none ∧ loadLine m line = m) := by
  rcases hns : matchNotSet line with _ | s
  · rcases hcf : matchConfig line with _ | ⟨s, v⟩
    · exact Or.inr (Or.inr ⟨rfl, rfl, loadLine_skip m line hns hcf⟩)
    · exact Or.inr (Or.inl ⟨rfl, s, v, rfl, loadLine_assign m line s v hns hcf⟩)
  · exact Or.inl ⟨s, rfl, loadLine_notset m line s hns⟩

/-- C6: when `load` resolves no path (no argument and no bound path), or
the resolved path does not exist in the filesystem, it returns the
distinguished `-1` result and leaves the object (hence its mapping)
unchanged. -/
theorem claim_C6_not_found (fs : Str → Option Str) (self : Defconfig) (arg : Option Str)
    (h : (arg = none ∧ self.path = none) ∨
      (∃ p, resolveArg arg self.path = some p ∧ fs p = none)) :
    Defconfig.load fs self arg = (some (-1), self) := by
  rcases h with ⟨ha, hp⟩ | ⟨p, hp, hfs⟩
  · subst ha
    simp only [Defconfig.load, resolveArg, hp]
  · simp only [Defconfig.load, hp, hfs]

/-- C6 witness: loading with no argument and no bound path fails with
`-1` and preserves the mapping. -/
theorem claim_C6_witness :
    Defconfig.load (fun _ => none) ⟨none, [("A".toList, "y".toList)]⟩ none =
      (some (-1), ⟨none, [("A".toList, "y".toList)]⟩) :=
  claim_C6_not_found (fun _ => none) ⟨none, [("A".toList, "y".toList)]⟩ none
    (Or.inl ⟨rfl, rfl⟩)

/-- C2 counterexample: for the line `A=B=C`, the recorded value is `C`
(everything after the last `=`), stored under symbol `A=B` — not the
value `B=C` under symbol `A` that the claim ("everything after the first
`=`") predicts. -/
theorem claim_C2_cex :
    loadLines [] ["A=B=C".toList] = [("A=B".toList, "C".toList)] ∧
    lookupKV "A".toList (loadLines [] ["A=B=C".toList]) = none := by decide

/-- C2 (amended): for a line of the form `SYMBOL=VALUE` processed by the
assignment grammar, the greedy first group makes the split happen at the
LAST `=` of the line: whenever the line is `s ++ '=' :: v` with `v`
free of `=` (i.e. `v` is the text after the last `=`), the match yields
symbol `s` and literal, un-reparsed value `v` (possibly empty), and the
stripped symbol is recorded with that value. -/
theorem claim_C2_assign_value (m : List (Str × Str)) (s v : Str)
    (hnl : '\n' ∉ s ++ '=' :: v)
    (hns : matchNotSet (s ++ '=' :: v) = none)
    (hv : '=' ∉ v) :
    matchConfig (s ++ '=' :: v) = some (s, v) ∧
    loadLine m (s ++ '=' :: v) = dinsert m (stripConfig s) v := by
  refine ⟨matchConfig_split s v hv, ?_⟩
  rw [loadLine_assign m _ s v hns (matchConfig_split s v hv)]

/-- C2 witness: `CONFIG_A=B=C` is split at the last `=`: symbol
`CONFIG_A=B` (stripped to `A=B`), value `C`. -/
theorem claim_C2_witness :
    ('\n' ∉ "CONFIG_A=B".toList ++ '=' :: "C".toList) ∧
    ('=' ∉ "C".toList) ∧
    (matchConfig ("CONFIG_A=B".toList ++ '=' :: "C".toList) =
        some ("CONFIG_A=B".toList, "C".toList) ∧
      loadLine [] ("CONFIG_A=B".toList ++ '=' :: "C".toList) =
        dinsert [] (stripConfig "CONFIG_A=B".toList) "C".toList) :=
  ⟨by decide, by decide,
    claim_C2_assign_value [] "CONFIG_A=B".toList "C".toList (by decide) (by decide)
      (by decide)⟩

/-- C4 counterexample: two Configuration Sets with identical (empty)
mappings produce a diff file whose content is a single newline (the
final `print` adds `'\n'`), not the empty content the claim states. -/
theorem claim_C4_cex :
    saveDiffContent [] [] = ['\n'] ∧ saveDiffContent [] [] ≠ [] := by decide

/-- C4 (amended): identical mappings produce no diff lines; the written
file content is exactly one newline character (from the final `print`),
not the empty string. -/
theorem claim_C4_no_diff (s t : List (Str × Str)) (hs : nodupKeys s) (ht : nodupKeys t)
    (h : ∀ k, lookupKV k s = lookupKV k t) :
    saveDiffLines s t = [] ∧ saveDiffContent s t = ['\n'] := by
  have hminus : minusLines s t = [] := by
    unfold minusLines
    have hf : (t.filter fun p => (lookupKV p.1 s).isNone) = [] := by
      rw [List.filter_eq_nil_iff]
      intro p hp
      have h1 : lookupKV p.1 t = some p.2 := lookup_eq_some_of_mem ht hp
      have h2 : lookupKV p.1 s = some p.2 := by rw [h p.1]; exact h1
      simp [h2]
    rw [hf]
    rfl
  have hplus : plusLines s t = [] := by
    unfold plusLines
    have hf : (s.filter fun p => (lookupKV p.1 t).isNone) = [] := by
      rw [List.filter_eq_nil_iff]
      intro p hp
      have h1 : lookupKV p.1 s = some p.2 := lookup_eq_some_of_mem hs hp
      have h2 : lookupKV p.1 t = some p.2 := by rw [← h p.1]; exact h1
      simp [h2]
    rw [hf]
    rfl
  have hch : changesLines s t = [] := by
    unfold changesLines
    have hf : (s.filterMap fun p =>
        match lookupKV p.1 t with
        | some tv => if tv = p.2 then none else some (fmtChange p.1 tv p.2)
        | none => none) = [] := by
      rw [List.filterMap_eq_nil_iff]
      intro p hp
      have h1 : lookupKV p.1 s = some p.2 := lookup_eq_some_of_mem hs hp
      have h2 : lookupKV p.1 t = some p.2 := by rw [← h p.1]; exact h1
      rw [h2]
      simp
    rw [hf]
    rfl
  have hlines : saveDiffLines s t = [] := by
    unfold saveDiffLines
    rw [hminus, hplus, hch]
    rfl
  refine ⟨hlines, ?_⟩
  unfold saveDiffContent
  rw [hlines]
  rfl

/-- C4 witness: two identical one-entry mappings yield an empty diff
list and single-newline content. -/
theorem claim_C4_witness :
    nodupKeys [("A".toList, "y".toList)] ∧
    (saveDiffLines [("A".toList, "y".toList)] [("A".toList, "y".toList)] = [] ∧
      saveDiffContent [("A".toList, "y".toList)] [("A".toList, "y".toList)] = ['\n']) :=
  ⟨by decide,
    claim_C4_no_diff [("A".toList, "y".toList)] [("A".toList, "y".toList)]
      (by decide) (by decide) (fun _ => rfl)⟩

/-- C7: `save` writes the fixed header block first, then the entry lines
(`# CONFIG_<sym> is not set` for the `n` marker, `CONFIG_<sym>=<val>`
otherwise) after a lexicographic sort pass over the fully formatted
lines; the entry lines are a permutation of the formatted mapping and the
output is independent of insertion order. -/
theorem claim_C7_save_canonical (opts opts' : List (Str × Str)) (hperm : opts.Perm opts') :
    saveContent opts = headerStr ++ '\n' :: joinNl (entryLines opts) ++ ['\n'] ∧
    List.Sorted strLe (entryLines opts) ∧
    (entryLines opts).Perm (opts.map fmtEntry) ∧
    saveContent opts = saveContent opts' := by
  refine ⟨rfl, ?_, entryLines_perm opts, ?_⟩
  · unfold entryLines
    exact List.sorted_insertionSort strLe _
  · unfold saveContent
    have hs1 : List.Sorted strLe (entryLines opts) := by
      unfold entryLines
      exact List.sorted_insertionSort strLe _
    have hs2 : List.Sorted strLe (entryLines opts') := by
      unfold entryLines
      exact List.sorted_insertionSort strLe _
    have heq : entryLines opts = entryLines opts' :=
      List.eq_of_perm_of_sorted
        ((entryLines_perm opts).trans ((hperm.map fmtEntry).trans
          (entryLines_perm opts').symm)) hs1 hs2
    rw [heq]

/-- C7 witness: for a concrete two-entry mapping given in both orders,
the canonical-form facts hold. -/
theorem claim_C7_witness :
    (saveContent [("B".toList, "n".toList), ("A".toList, "y".toList)] =
      headerStr ++ '\n' ::
        joinNl (entryLines [("B".toList, "n".toList), ("A".toList, "y".toList)]) ++
          ['\n']) ∧
    List.Sorted strLe (entryLines [("B".toList, "n".toList), ("A".toList, "y".toList)]) ∧
    (entryLines [("B".toList, "n".toList), ("A".toList, "y".toList)]).Perm
      (([("B".toList, "n".toList), ("A".toList, "y".toList)]).map fmtEntry) ∧
    saveContent [("B".toList, "n".toList), ("A".toList, "y".toList)] =
      saveContent [("A".toList, "y".toList), ("B".toList, "n".toList)] :=
  claim_C7_save_canonical [("B".toList, "n".toList), ("A".toList, "y".toList)]
    [("A".toList, "y".toList), ("B".toList, "n".toList)] (by decide)

theorem cons2_inj {rest x : Str} (h : ('#' :: ' ' :: rest : Str) = '#' :: ' ' :: x) :
    rest = x := by
  simp only [List.cons.injEq, true_and] at h
  exact h

theorem matchNotSet_char (rest : Str) :
    matchNotSet ('#' :: ' ' :: rest) =
      match findLastSub notSetLit rest with
      | some i => some (rest.take i)
      | none => none := by
  unfold matchNotSet
  have h2 : "# ".toList = '#' :: [' '] := by decide
  have hpre : isPre ("# ".toList) ('#' :: ' ' :: rest) = true := by
    rw [h2]
    simp [isPre]
  rw [hpre, if_pos rfl]
  rfl

/-- C8 counterexample: the disabled-option pattern has no end anchor, so
the line `# FOO is not set junk` — not of the exact form the claim
requires — still records `FOO` with the disabled marker. -/
theorem claim_C8_cex :
    loadLines [] ["# FOO is not set junk".toList] = [("FOO".toList, "n".toList)] := by
  decide

/-- C8 (amended): a line is recorded as disabled iff it starts with `# `
and contains ` is not set` somewhere after that prefix; arbitrary
trailing text is allowed, and the recorded symbol is the text between
`# ` and the LAST occurrence of ` is not set` (the greedy group), with
the first `CONFIG_` occurrence then stripped. -/
theorem claim_C8_notset_grammar (line s : Str) (m : List (Str × Str))
    (hnl : '\n' ∉ line) :
    (matchNotSet line = some s ↔
      ((∃ t, line = '#' :: ' ' :: (s ++ (notSetLit ++ t))) ∧
        ∀ s' t', line = '#' :: ' ' :: (s' ++ (notSetLit ++ t')) →
          s'.length ≤ s.length)) ∧
    (matchNotSet line = some s → loadLine m line = dinsert m (stripConfig s) ['n']) := by
  refine ⟨?_, fun h => loadLine_notset m line s h⟩
  rcases hpre : isPre ("# ".toList) line with _ | _
  · constructor
    · intro h
      rw [matchNotSet_eq_none line hpre] at h
      cases h
    · rintro ⟨⟨t, hline2⟩, _⟩
      exfalso
      rw [hline2] at hpre
      have hyes : isPre ("# ".toList) ('#' :: ' ' :: (s ++ (notSetLit ++ t))) = true := by
        have h2 : "# ".toList = '#' :: [' '] := by decide
        rw [h2]
        simp [isPre]
      rw [hyes] at hpre
      cases hpre
  · obtain ⟨rest, hrest⟩ := (isPre_iff _ _).mp hpre
    have hline' : line = '#' :: ' ' :: rest := by
      rw [hrest]
      have h2 : "# ".toList = '#' :: [' '] := by decide
      rw [h2]
      rfl
    subst hline'
    rw [matchNotSet_char rest]
    rcases hfind : findLastSub notSetLit rest with _ | i
    · show (none : Option Str) = some s ↔ _
      constructor
      · intro h
        cases h
      · rintro ⟨⟨t, hline2⟩, _⟩
        exfalso
        have hrest2 : rest = s ++ (notSetLit ++ t) := cons2_inj hline2
        have hocc : isPre notSetLit (rest.drop s.length) = true := by
          rw [hrest2, drop_len_append]
          exact isPre_append_self notSetLit t
        have hno := findLastSub_none_spec (by decide : notSetLit ≠ []) rest hfind s.length
        rw [hocc] at hno
        cases hno
    · have hspec := findLastSub_some_spec (by decide : notSetLit ≠ []) rest i hfind
      have hi_le : i ≤ rest.length := by
        by_contra hgt
        push_neg at hgt
        have hdrop : rest.drop i = [] := List.drop_eq_nil_of_le (le_of_lt hgt)
        have hfalse := hspec.1
        rw [hdrop, isPre_nil_false (by decide : notSetLit ≠ [])] at hfalse
        cases hfalse
      show some (rest.take i) = some s ↔ _
      rw [Option.some_inj]
      constructor
      · rintro rfl
        obtain ⟨t, ht⟩ := (isPre_iff _ _).mp hspec.1
        constructor
        · refine ⟨t, ?_⟩
          have hdecomp : rest = rest.take i ++ (notSetLit ++ t) := by
            conv_lhs => rw [← List.take_append_drop i rest]
            rw [ht]
          exact congrArg (fun x => '#' :: ' ' :: x) hdecomp
        · intro s' t' hline2
          have hrest2 : rest = s' ++ (notSetLit ++ t') := cons2_inj hline2
          have hocc : isPre notSetLit (rest.drop s'.length) = true := by
            rw [hrest2, drop_len_append]
            exact isPre_append_self notSetLit t'
          have hle := hspec.2 s'.length hocc
          rw [List.length_take]
          exact le_min hle (hle.trans hi_le)
      · rintro ⟨⟨t, hline2⟩, hmax⟩
        have hrest2 : rest = s ++ (notSetLit ++ t) := cons2_inj hline2
        have hocc : isPre notSetLit (rest.drop s.length) = true := by
          rw [hrest2, drop_len_append]
          exact isPre_append_self notSetLit t
        have h1 : s.length ≤ i := hspec.2 s.length hocc
        obtain ⟨t0, ht0⟩ := (isPre_iff _ _).mp hspec.1
        have hdecomp : rest = rest.take i ++ (notSetLit ++ t0) := by
          conv_lhs => rw [← List.take_append_drop i rest]
          rw [ht0]
        have h2' := hmax (rest.take i) t0 (congrArg (fun x => '#' :: ' ' :: x) hdecomp)
        rw [List.length_take, Nat.min_eq_left hi_le] at h2'
        have hi : i = s.length := le_antisymm h2' h1
        rw [hi, hrest2]
        exact take_len_append s _

/-- C8 witness: the exact-form line `# FOO is not set` satisfies the
grammar characterization with symbol `FOO`. -/
theorem claim_C8_witness :
    ('\n' ∉ "# FOO is not set".toList) ∧
    ((matchNotSet "# FOO is not set".toList = some "FOO".toList ↔
      ((∃ t, "# FOO is not set".toList =
          '#' :: ' ' :: ("FOO".toList ++ (notSetLit ++ t))) ∧
        ∀ s' t', "# FOO is not set".toList =
            '#' :: ' ' :: (s' ++ (notSetLit ++ t')) →
          s'.length ≤ "FOO".toList.length)) ∧
    (matchNotSet "# FOO is not set".toList = some "FOO".toList →
      loadLine [] "# FOO is not set".toList =
        dinsert [] (stripConfig "FOO".toList) ['n'])) :=
  ⟨by decide,
    claim_C8_notset_grammar "# FOO is not set".toList "FOO".toList [] (by decide)⟩

/-- C3 counterexample: loading `CONFIG_CONFIG_A=y` into an empty set
stores the key `CONFIG_A`, which contains the literal prefix `CONFIG_`
— only the first occurrence is removed. -/
theorem claim_C3_cex :
    loadLines [] ["CONFIG_CONFIG_A=y".toList] = [("CONFIG_A".toList, "y".toList)] ∧
    containsSub cfgLit "CONFIG_A".toList = true := by decide

/-- C3 (amended): `load` removes only the first occurrence of `CONFIG_`
anywhere in each accepted symbol, so the invariant "no stored key
contains `CONFIG_`" holds only when every accepted symbol is
`CONFIG_`-free after that single removal; under that proviso the
invariant is preserved by `load`, and `save` re-adds the prefix to every
key in both line forms. -/
theorem claim_C3_keys (lines : List Str) (m : List (Str × Str)) (q : Str × Str)
    (k v : Str)
    (hm : ∀ p ∈ m, containsSub cfgLit p.1 = false)
    (hl : ∀ l ∈ lines, containsSub cfgLit (parseBack l).1 = false)
    (hq : q ∈ loadLines m lines) :
    containsSub cfgLit q.1 = false ∧
    (fmtEntry (k, v) = "# ".toList ++ cfgLit ++ k ++ notSetLit ∨
      fmtEntry (k, v) = cfgLit ++ k ++ '=' :: v) := by
  constructor
  · rcases loadLines_keys lines m q hq with h | ⟨l, hlmem, hkey⟩
    · exact hm q h
    · rw [hkey]
      exact hl l hlmem
  · unfold fmtEntry
    by_cases hn : v = ['n']
    · exact Or.inl (by rw [if_pos hn])
    · exact Or.inr (by rw [if_neg hn])

/-- C3 witness: from an empty map, loading one assignment and one
disabled line with prefix-free stripped symbols keeps all keys
`CONFIG_`-free. -/
theorem claim_C3_witness :
    (∀ l ∈ ["CONFIG_A=y".toList, "# CONFIG_B is not set".toList],
      containsSub cfgLit (parseBack l).1 = false) ∧
    (containsSub cfgLit ("A".toList, "y".toList).1 = false ∧
      (fmtEntry ("A".toList, "y".toList) =
          "# ".toList ++ cfgLit ++ "A".toList ++ notSetLit ∨
        fmtEntry ("A".toList, "y".toList) = cfgLit ++ "A".toList ++ '=' :: "y".toList)) :=
  ⟨by decide,
    claim_C3_keys ["CONFIG_A=y".toList, "# CONFIG_B is not set".toList] []
      ("A".toList, "y".toList) "A".toList "y".toList
      (by decide) (by decide) (by decide)⟩

/-- C5: `save_diff` writes exactly the three disjoint groups — `-` lines
for symbols only in the target, `+` lines for symbols only in self, and
space-prefixed change lines for symbols in both with differing values
(target value first) — each group sorted lexicographically, concatenated
in the fixed order minus, changes, plus. -/
theorem claim_C5_diff_groups (s t : List (Str × Str)) (l : Str)
    (hs : nodupKeys s) (ht : nodupKeys t) :
    saveDiffLines s t =
      minusLines s t ++ changesLines s t ++ plusLines s t ∧
    List.Sorted strLe (minusLines s t) ∧
    List.Sorted strLe (changesLines s t) ∧
    List.Sorted strLe (plusLines s t) ∧
    (l ∈ minusLines s t ↔ ∃ k v, lookupKV k t = some v ∧ lookupKV k s = none ∧
      l = fmtMinus (k, v)) ∧
    (l ∈ plusLines s t ↔ ∃ k v, lookupKV k s = some v ∧ lookupKV k t = none ∧
      l = fmtPlus (k, v)) ∧
    (l ∈ changesLines s t ↔ ∃ k v w, lookupKV k s = some v ∧
      lookupKV k t = some w ∧ w ≠ v ∧ l = fmtChange k w v) := by
  refine ⟨rfl, ?_, ?_, ?_, ?_, ?_, ?_⟩
  · unfold minusLines
    exact List.sorted_insertionSort strLe _
  · unfold changesLines
    exact List.sorted_insertionSort strLe _
  · unfold plusLines
    exact List.sorted_insertionSort strLe _
  · unfold minusLines
    rw [List.mem_insertionSort, List.mem_map]
    constructor
    · rintro ⟨p, hp, rfl⟩
      simp only [List.mem_filter] at hp
      refine ⟨p.1, p.2, lookup_eq_some_of_mem ht hp.1,
        Option.isNone_iff_eq_none.mp hp.2, rfl⟩
    · rintro ⟨k, v, h1, h2, rfl⟩
      refine ⟨(k, v), ?_, rfl⟩
      simp only [List.mem_filter]
      exact ⟨lookup_some_mem h1, by simp [h2]⟩
  · unfold plusLines
    rw [List.mem_insertionSort, List.mem_map]
    constructor
    · rintro ⟨p, hp, rfl⟩
      simp only [List.mem_filter] at hp
      refine ⟨p.1, p.2, lookup_eq_some_of_mem hs hp.1,
        Option.isNone_iff_eq_none.mp hp.2, rfl⟩
    · rintro ⟨k, v, h1, h2, rfl⟩
      refine ⟨(k, v), ?_, rfl⟩
      simp only [List.mem_filter]
      exact ⟨lookup_some_mem h1, by simp [h2]⟩
  · unfold changesLines
    rw [List.mem_insertionSort, List.mem_filterMap]
    constructor
    · rintro ⟨p, hp, hf⟩
      rcases hlt : lookupKV p.1 t with _ | tv
      · rw [hlt] at hf
        cases hf
      · rw [hlt] at hf
        have hf2 : (if tv = p.2 then none
            else some (fmtChange p.1 tv p.2)) = some l := hf
        by_cases hv : tv = p.2
        · rw [if_pos hv] at hf2
          cases hf2
        · rw [if_neg hv] at hf2
          exact ⟨p.1, p.2, tv, lookup_eq_some_of_mem hs hp, hlt, hv,
            (Option.some_inj.mp hf2).symm⟩
    · rintro ⟨k, v, w, h1, h2, hne, rfl⟩
      refine ⟨(k, v), lookup_some_mem h1, ?_⟩
      show (match lookupKV k t with
        | some tv => if tv = v then none else some (fmtChange k tv v)
        | none => none) = some (fmtChange k w v)
      rw [h2]
      show (if w = v then none else some (fmtChange k w v)) = some (fmtChange k w v)
      rw [if_neg hne]

/-- C5 witness: with self = {A:1, B:2} and other = {B:3, C:4}, the diff
facts hold; in particular the change line ` B=3->2` is characterized. -/
theorem claim_C5_witness :
    nodupKeys [("A".toList, "1".toList), ("B".toList, "2".toList)] ∧
    nodupKeys [("B".toList, "3".toList), ("C".toList, "4".toList)] ∧
    (saveDiffLines [("A".toList, "1".toList), ("B".toList, "2".toList)]
        [("B".toList, "3".toList), ("C".toList, "4".toList)] =
      minusLines [("A".toList, "1".toList), ("B".toList, "2".toList)]
          [("B".toList, "3".toList), ("C".toList, "4".toList)] ++
        changesLines [("A".toList, "1".toList), ("B".toList, "2".toList)]
          [("B".toList, "3".toList), ("C".toList, "4".toList)] ++
        plusLines [("A".toList, "1".toList), ("B".toList, "2".toList)]
          [("B".toList, "3".toList), ("C".toList, "4".toList)] ∧
    List.Sorted strLe (minusLines [("A".toList, "1".toList), ("B".toList, "2".toList)]
      [("B".toList, "3".toList), ("C".toList, "4".toList)]) ∧
    List.Sorted strLe (changesLines [("A".toList, "1".toList), ("B".toList, "2".toList)]
      [("B".toList, "3".toList), ("C".toList, "4".toList)]) ∧
    List.Sorted strLe (plusLines [("A".toList, "1".toList), ("B".toList, "2".toList)]
      [("B".toList, "3".toList), ("C".toList, "4".toList)]) ∧
    (" B=3->2".toList ∈ minusLines [("A".toList, "1".toList), ("B".toList, "2".toList)]
        [("B".toList, "3".toList), ("C".toList, "4".toList)] ↔
      ∃ k v, lookupKV k [("B".toList, "3".toList), ("C".toList, "4".toList)] = some v ∧
        lookupKV k [("A".toList, "1".toList), ("B".toList, "2".toList)] = none ∧
        " B=3->2".toList = fmtMinus (k, v)) ∧
    (" B=3->2".toList ∈ plusLines [("A".toList, "1".toList), ("B".toList, "2".toList)]
        [("B".toList, "3".toList), ("C".toList, "4".toList)] ↔
      ∃ k v, lookupKV k [("A".toList, "1".toList), ("B".toList, "2".toList)] = some v ∧
        lookupKV k [("B".toList, "3".toList), ("C".toList, "4".toList)] = none ∧
        " B=3->2".toList = fmtPlus (k, v)) ∧
    (" B=3->2".toList ∈ changesLines [("A".toList, "1".toList), ("B".toList, "2".toList)]
        [("B".toList, "3".toList), ("C".toList, "4".toList)] ↔
      ∃ k v w, lookupKV k [("A".toList, "1".toList), ("B".toList, "2".toList)] = some v ∧
        lookupKV k [("B".toList, "3".toList), ("C".toList, "4".toList)] = some w ∧
        w ≠ v ∧ " B=3->2".toList = fmtChange k w v)) :=
  ⟨by decide, by decide,
    claim_C5_diff_groups [("A".toList, "1".toList), ("B".toList, "2".toList)]
      [("B".toList, "3".toList), ("C".toList, "4".toList)] " B=3->2".toList
      (by decide) (by decide)⟩

/-- C1 counterexample: the mapping {A: "="} (no disabled marker) does
not round-trip: the saved line `CONFIG_A==` re-parses as symbol `A=`
with empty value, so the fresh set no longer maps `A`. -/
theorem claim_C1_cex :
    lookupKV "A".toList
        (Defconfig.load (singleFs "d".toList (saveContent [("A".toList, "=".toList)]))
          ⟨none, []⟩ (some "d".toList)).2.opts = none ∧
    lookupKV "A".toList [("A".toList, "=".toList)] = some "=".toList ∧
    "=".toList ≠ ['n'] := by decide

/-- C1 (amended): `save` followed by `load` of the written file into a
fresh empty Configuration Set reproduces the mapping extensionally,
provided additionally that no value contains `=` and no symbol or value
contains a newline. -/
theorem claim_C1_roundtrip (p : Str) (opts : List (Str × Str)) (k : Str)
    (hnd : nodupKeys opts)
    (hstr : ∀ q ∈ opts, '\n' ∉ q.1 ∧ '\n' ∉ q.2 ∧ '=' ∉ q.2)
    (hnon : ∀ q ∈ opts, q.2 ≠ ['n']) :
    (Defconfig.load (singleFs p (saveContent opts)) ⟨none, []⟩ (some p)).1 = none ∧
    lookupKV k
        (Defconfig.load (singleFs p (saveContent opts)) ⟨none, []⟩ (some p)).2.opts =
      lookupKV k opts := by
  have hload : Defconfig.load (singleFs p (saveContent opts)) ⟨none, []⟩ (some p) =
      (none, ⟨none, loadLines [] (pyLines (saveContent opts))⟩) := by
    unfold Defconfig.load resolveArg singleFs
    simp
  rw [hload]
  exact ⟨rfl, roundtrip_lookup opts k hnd hstr⟩

/-- C1 witness: a two-entry mapping with plain values round-trips. -/
theorem claim_C1_witness :
    nodupKeys [("A".toList, "y".toList), ("B".toList, "x".toList)] ∧
    (∀ q ∈ [("A".toList, "y".toList), ("B".toList, "x".toList)], q.2 ≠ ['n']) ∧
    ((Defconfig.load (singleFs "d".toList (saveContent
        [("A".toList, "y".toList), ("B".toList, "x".toList)])) ⟨none, []⟩
        (some "d".toList)).1 = none ∧
      lookupKV "A".toList
          (Defconfig.load (singleFs "d".toList (saveContent
            [("A".toList, "y".toList), ("B".toList, "x".toList)])) ⟨none, []⟩
            (some "d".toList)).2.opts =
        lookupKV "A".toList [("A".toList, "y".toList), ("B".toList, "x".toList)]) :=
  ⟨by decide, by decide,
    claim_C1_roundtrip "d".toList [("A".toList, "y".toList), ("B".toList, "x".toList)]
      "A".toList (by decide) (by decide) (by decide)⟩

/-- C9 counterexample: in {A=B: n, A: "B=CC"}, the disabled symbol `A=B`
does not survive the round trip: the saved assignment line
`CONFIG_A=B=CC` re-parses onto the key `A=B` and overwrites the marker
with `CC`. -/
theorem claim_C9_cex :
    lookupKV "A=B".toList
        [("A=B".toList, "n".toList), ("A".toList, "B=CC".toList)] = some "n".toList ∧
    lookupKV "A=B".toList
        (Defconfig.load (singleFs "d".toList (saveContent
          [("A=B".toList, "n".toList), ("A".toList, "B=CC".toList)]))
          ⟨none, []⟩ (some "d".toList)).2.opts = some "CC".toList := by decide

/-- C9 (amended): a symbol mapped to the disabled marker `n` survives
save/load as the marker — serialized via the `# ... is not set` comment
form and never as a literal `SYMBOL=n` assignment line — provided no
value in the mapping contains `=` and symbols/values are newline-free. -/
theorem claim_C9_disabled_roundtrip (p : Str) (opts : List (Str × Str)) (k : Str)
    (hnd : nodupKeys opts)
    (hstr : ∀ q ∈ opts, '\n' ∉ q.1 ∧ '\n' ∉ q.2 ∧ '=' ∉ q.2)
    (hk : lookupKV k opts = some ['n']) :
    lookupKV k
        (Defconfig.load (singleFs p (saveContent opts)) ⟨none, []⟩ (some p)).2.opts =
      some ['n'] ∧
    fmtEntry (k, ['n']) = '#' :: ' ' :: ((cfgLit ++ k) ++ notSetLit) ∧
    (cfgLit ++ k ++ '=' :: ['n']) ∉ entryLines opts := by
  have hload : Defconfig.load (singleFs p (saveContent opts)) ⟨none, []⟩ (some p) =
      (none, ⟨none, loadLines [] (pyLines (saveContent opts))⟩) := by
    unfold Defconfig.load resolveArg singleFs
    simp
  refine ⟨?_, fmtEntry_eq_notset k, ?_⟩
  · rw [hload]
    show lookupKV k (loadLines [] (pyLines (saveContent opts))) = some ['n']
    rw [roundtrip_lookup opts k hnd hstr]
    exact hk
  · intro hmem
    rcases List.mem_map.mp ((entryLines_perm opts).mem_iff.mp hmem) with ⟨q, hq, hfq⟩
    rcases q with ⟨q1, q2⟩
    by_cases hn : q2 = ['n']
    · subst hn
      rw [fmtEntry_eq_notset q1] at hfq
      have hc : cfgLit = 'C' :: "ONFIG_".toList := by decide
      rw [hc, List.cons_append] at hfq
      have hhead : ('#' : Char) = 'C' := (List.cons.injEq _ _ _ _ ▸ hfq).1
      exact absurd hhead (by decide)
    · rw [fmtEntry_eq_assign q1 q2 hn] at hfq
      have h1 : matchConfig ((cfgLit ++ q1) ++ '=' :: q2) = some (cfgLit ++ q1, q2) :=
        matchConfig_split _ _ (hstr (q1, q2) hq).2.2
      have h2 : matchConfig ((cfgLit ++ k) ++ '=' :: ['n']) =
          some (cfgLit ++ k, ['n']) :=
        matchConfig_split _ _ (by decide)
      have heq2 : (cfgLit ++ q1) ++ '=' :: q2 = (cfgLit ++ k) ++ '=' :: ['n'] :=
        hfq.trans (List.append_assoc cfgLit k _).symm
      have h3 : some (cfgLit ++ q1, q2) = some (cfgLit ++ k, (['n'] : Str)) := by
        rw [← h1, ← h2, heq2]
      have h4 := Option.some_inj.mp h3
      exact hn (congrArg Prod.snd h4)

/-- C9 witness: in {A: n, B: y}, the symbol `A` survives the round trip
with the disabled marker and its line uses the comment form. -/
theorem claim_C9_witness :
    nodupKeys [("A".toList, "n".toList), ("B".toList, "y".toList)] ∧
    lookupKV "A".toList [("A".toList, "n".toList), ("B".toList, "y".toList)] =
      some ['n'] ∧
    (lookupKV "A".toList
        (Defconfig.load (singleFs "d".toList (saveContent
          [("A".toList, "n".toList), ("B".toList, "y".toList)]))
          ⟨none, []⟩ (some "d".toList)).2.opts = some ['n'] ∧
      fmtEntry ("A".toList, ['n']) =
        '#' :: ' ' :: ((cfgLit ++ "A".toList) ++ notSetLit) ∧
      (cfgLit ++ "A".toList ++ '=' :: ['n']) ∉
        entryLines [("A".toList, "n".toList), ("B".toList, "y".toList)]) :=
  ⟨by decide, by decide,
    claim_C9_disabled_roundtrip "d".toList
      [("A".toList, "n".toList), ("B".toList, "y".toList)] "A".toList
      (by decide) (by decide) (by decide)⟩
